import Mathlib

/-!
Verification of `allyourbase.py`: a tool recovering the probable base load
address of a raw binary blob by correlating candidate pointer values with
candidate string offsets modulo a list of pairwise-coprime odd moduli and
combining the per-modulus alignments with the Chinese remainder theorem.

The Python source is embedded shallowly:
* byte blobs are `List ℕ` (each entry a byte value),
* Python `set[int]` values are `Finset ℕ`,
* the FFT-based circular convolution of `find_max_overlap` is embedded as the
  exact circular convolution it computes (the transform is a numeric service;
  on the integer histograms involved it computes exact integer counts),
* `np.argmax` is the first index attaining the maximum,
* Python `pow(a, -1, p)` is the modular multiplicative inverse in `[0, p)`,
  embedded as the least `x < p` with `a * x % p = 1` (the inverse is unique
  modulo `p`, so this is the value `pow` returns when it exists).
-/

/-- Embedding of Python `pow(a, -1, p)` (modular multiplicative inverse):
the least `x ∈ [0, p)` with `a * x % p = 1`, and `0` when none exists
(`pow` raises in that case; in `find_max_overlap` coprimality guarantees
existence). Uniqueness of inverses makes "least such" the exact value. -/
def modInverse (a p : ℕ) : ℕ :=
  ((List.range p).find? fun x => decide (a * x % p = 1)).getD 0

/-- Embedding of the Chinese-remainder combination step of
`find_max_overlap` (allyourbase.py lines 83-87):
`k = sum(offset * (M // p) * pow(M // p, -1, p) for p, offset in zip(modulos, offsets)) % M`
with `M = math.prod(modulos)`. -/
def crt_combine (modulos offsets : List ℕ) : ℕ :=
  ((modulos.zip offsets).map fun pr =>
    pr.2 * (modulos.prod / pr.1) * modInverse (modulos.prod / pr.1) pr.1).sum
    % modulos.prod

lemma modInverse_spec {a p : ℕ} (hp : 1 < p) (h : Nat.Coprime a p) :
    a * modInverse a p % p = 1 := by
  obtain ⟨u, hu⟩ := Nat.exists_mul_emod_eq_one_of_coprime h hp
  have hu' : a * (u % p) % p = 1 := by
    rw [Nat.mul_mod, Nat.mod_mod_of_dvd u dvd_rfl, ← Nat.mul_mod]
    exact hu
  have hmem : u % p ∈ List.range p := List.mem_range.mpr (Nat.mod_lt u (by omega))
  rcases hfind : (List.range p).find? fun x => decide (a * x % p = 1) with _ | y
  · exfalso
    have := List.find?_eq_none.mp hfind (u % p) hmem
    simp only [decide_eq_true_eq] at this
    exact this hu'
  · have := List.find?_some hfind
    simp only [decide_eq_true_eq] at this
    simpa [modInverse, hfind] using this

lemma coprime_list_prod {l : List ℕ} {p : ℕ} (h : ∀ x ∈ l, Nat.Coprime x p) :
    Nat.Coprime l.prod p :=
  Nat.coprime_list_prod_left_iff.mpr h

/-- Dividing the product of a list by one occurrence of an element yields the
product of the remaining elements. -/
lemma prod_div_eq {l₁ l₂ : List ℕ} {a : ℕ} (ha : 0 < a) :
    (l₁ ++ a :: l₂).prod / a = l₁.prod * l₂.prod := by
  rw [List.prod_append, List.prod_cons]
  rw [show l₁.prod * (a * l₂.prod) = a * (l₁.prod * l₂.prod) by ring]
  exact Nat.mul_div_cancel_left _ ha

lemma modEq_of_forall_mem {a b : ℕ} {l : List ℕ} (hcop : l.Pairwise Nat.Coprime)
    (h : ∀ p ∈ l, a ≡ b [MOD p]) : a ≡ b [MOD l.prod] := by
  rw [Nat.modEq_list_prod_iff hcop]
  exact fun i => h _ (l.get_mem _ _)

/-- The individual congruence satisfied by the CRT sum: modulo the element at
any given split position, the sum reduces to the offset at that position. -/
lemma crt_combine_modEq {t₁ t₂ u₁ u₂ : List ℕ} {p r : ℕ}
    (hlen : t₁.length = u₁.length)
    (hpos : ∀ q ∈ t₁ ++ p :: t₂, 0 < q)
    (hcop : (t₁ ++ p :: t₂).Pairwise Nat.Coprime) :
    crt_combine (t₁ ++ p :: t₂) (u₁ ++ r :: u₂) ≡ r [MOD p] := by
  rcases List.pairwise_append.mp hcop with ⟨hc₁, hc₂, hc₁₂⟩
  have hp : 0 < p := hpos p (by simp)
  have hpM : p ∣ (t₁ ++ p :: t₂).prod := List.dvd_prod (by simp)
  set M := (t₁ ++ p :: t₂).prod with hM
  set f : ℕ × ℕ → ℕ :=
    fun pr => pr.2 * (M / pr.1) * modInverse (M / pr.1) pr.1 with hf
  -- the raw CRT sum, before reduction modulo M
  have hzip : (t₁ ++ p :: t₂).zip (u₁ ++ r :: u₂) =
      t₁.zip u₁ ++ (p, r) :: t₂.zip u₂ := by
    rw [List.zip_append hlen]; rfl
  have hsum : ((((t₁ ++ p :: t₂).zip (u₁ ++ r :: u₂)).map f).sum) =
      ((t₁.zip u₁).map f).sum + (f (p, r) + ((t₂.zip u₂).map f).sum) := by
    rw [hzip, List.map_append, List.sum_append, List.map_cons, List.sum_cons]
  -- side terms vanish modulo p
  have hS₁ : p ∣ ((t₁.zip u₁).map f).sum := by
    refine List.dvd_sum fun x hx => ?_
    obtain ⟨⟨q, s⟩, hqs, rfl⟩ := List.mem_map.mp hx
    obtain ⟨hq, -⟩ := List.of_mem_zip hqs
    obtain ⟨x₁, y₁, rfl⟩ := List.append_of_mem hq
    have hps : (x₁ ++ q :: y₁) ++ p :: t₂ = x₁ ++ q :: (y₁ ++ p :: t₂) := by
      simp
    have hq0 : 0 < q := hpos q (by simp)
    have hdiv : M / q = x₁.prod * (y₁ ++ p :: t₂).prod := by
      rw [hM, hps]; exact prod_div_eq hq0
    have hpq : p ∣ M / q := by
      rw [hdiv]
      exact Dvd.dvd.mul_left (List.dvd_prod (by simp)) _
    simpa [hf] using (hpq.mul_left s).mul_right _
  have hS₂ : p ∣ ((t₂.zip u₂).map f).sum := by
    refine List.dvd_sum fun x hx => ?_
    obtain ⟨⟨q, s⟩, hqs, rfl⟩ := List.mem_map.mp hx
    obtain ⟨hq, -⟩ := List.of_mem_zip hqs
    obtain ⟨x₂, y₂, rfl⟩ := List.append_of_mem hq
    have hps : t₁ ++ p :: (x₂ ++ q :: y₂) = (t₁ ++ p :: x₂) ++ q :: y₂ := by
      simp
    have hq0 : 0 < q := hpos q (by simp)
    have hdiv : M / q = (t₁ ++ p :: x₂).prod * y₂.prod := by
      rw [hM, hps]; exact prod_div_eq hq0
    have hpq : p ∣ M / q := by
      rw [hdiv]
      exact Dvd.dvd.mul_right (List.dvd_prod (by simp)) _
    simpa [hf] using (hpq.mul_left s).mul_right _
  -- the central term is congruent to r
  have hT : f (p, r) ≡ r [MOD p] := by
    rcases Nat.lt_or_ge 1 p with hp1 | hp1
    · have hdiv : M / p = t₁.prod * t₂.prod := by rw [hM]; exact prod_div_eq hp
      have hcopM : Nat.Coprime (M / p) p := by
        rw [hdiv]
        exact Nat.Coprime.mul
          (coprime_list_prod fun a ha => hc₁₂ a ha p (by simp))
          (coprime_list_prod fun a ha =>
            ((List.pairwise_cons.mp hc₂).1 a ha).symm)
      have hinv : M / p * modInverse (M / p) p ≡ 1 [MOD p] := by
        show M / p * modInverse (M / p) p % p = 1 % p
        rw [modInverse_spec hp1 hcopM, Nat.mod_eq_of_lt hp1]
      calc f (p, r) = r * (M / p * modInverse (M / p) p) := by rw [hf]; ring
        _ ≡ r * 1 [MOD p] := Nat.ModEq.mul_left r hinv
        _ = r := by ring
    · interval_cases p
      exact Nat.modEq_one
  -- assemble
  have hsum' : (((t₁ ++ p :: t₂).zip (u₁ ++ r :: u₂)).map f).sum ≡
      0 + (r + 0) [MOD p] := by
    rw [hsum]
    exact Nat.ModEq.add ((Nat.modEq_zero_iff_dvd).mpr hS₁)
      (Nat.ModEq.add hT ((Nat.modEq_zero_iff_dvd).mpr hS₂))
  have hmod : crt_combine (t₁ ++ p :: t₂) (u₁ ++ r :: u₂) ≡
      (((t₁ ++ p :: t₂).zip (u₁ ++ r :: u₂)).map f).sum [MOD p] := by
    show _ % p = _ % p
    exact Nat.mod_mod_of_dvd _ hpM
  exact hmod.trans (by simpa using hsum')

lemma list_prod_pos {l : List ℕ} (h : ∀ x ∈ l, 0 < x) : 0 < l.prod := by
  induction l with
  | nil => simp
  | cons a t ih =>
    rw [List.prod_cons]
    exact Nat.mul_pos (h a (by simp)) (ih fun x hx => h x (by simp [hx]))

/-- Any position of the zip of the modulus and offset lists gives a splitting
of both lists to which `crt_combine_modEq` applies. -/
lemma crt_combine_mem_zip {modulos offsets : List ℕ}
    (hlen : offsets.length = modulos.length)
    (hpos : ∀ p ∈ modulos, 0 < p)
    (hcop : modulos.Pairwise Nat.Coprime) :
    ∀ pr ∈ modulos.zip offsets,
      crt_combine modulos offsets % pr.1 = pr.2 % pr.1 := by
  intro pr hpr
  obtain ⟨⟨i, hi⟩, hget⟩ := List.mem_iff_get.mp hpr
  have hlz : (modulos.zip offsets).length = modulos.length := by
    rw [List.length_zip, hlen, Nat.min_self]
  have him : i < modulos.length := hlz ▸ hi
  have hio : i < offsets.length := by omega
  have hsplit_m : modulos = modulos.take i ++
      modulos.get ⟨i, him⟩ :: modulos.drop (i + 1) := by
    conv_lhs => rw [← List.take_append_drop i modulos]
    rw [List.drop_eq_getElem_cons him]
    simp [List.get_eq_getElem]
  have hsplit_o : offsets = offsets.take i ++
      offsets.get ⟨i, hio⟩ :: offsets.drop (i + 1) := by
    conv_lhs => rw [← List.take_append_drop i offsets]
    rw [List.drop_eq_getElem_cons hio]
    simp [List.get_eq_getElem]
  have hlen' : (modulos.take i).length = (offsets.take i).length := by
    rw [List.length_take, List.length_take]
    omega
  have hget' : pr = (modulos.get ⟨i, him⟩, offsets.get ⟨i, hio⟩) := by
    rw [← hget, List.get_zip]
  have hpos' : ∀ q ∈ modulos.take i ++
      modulos.get ⟨i, him⟩ :: modulos.drop (i + 1), 0 < q := by
    rw [← hsplit_m]; exact hpos
  have hcop' : (modulos.take i ++
      modulos.get ⟨i, him⟩ :: modulos.drop (i + 1)).Pairwise Nat.Coprime := by
    rw [← hsplit_m]; exact hcop
  have key := @crt_combine_modEq (modulos.take i) (modulos.drop (i + 1))
    (offsets.take i) (offsets.drop (i + 1)) (modulos.get ⟨i, him⟩)
    (offsets.get ⟨i, hio⟩) hlen' hpos' hcop'
  rw [← hsplit_m, ← hsplit_o] at key
  rw [hget']
  exact key

/-- C1: for pairwise-coprime moduli and per-modulus local offsets, the CRT
combination step of `find_max_overlap` returns the unique value
`k ∈ [0, M)` (`M` the product of the moduli) congruent to each offset
modulo its modulus. -/
theorem crt_combine_correct (modulos offsets : List ℕ)
    (hlen : offsets.length = modulos.length)
    (hpos : ∀ p ∈ modulos, 0 < p)
    (hcop : modulos.Pairwise Nat.Coprime) :
    crt_combine modulos offsets < modulos.prod ∧
    (∀ pr ∈ modulos.zip offsets,
      crt_combine modulos offsets % pr.1 = pr.2 % pr.1) ∧
    (∀ k, k < modulos.prod →
      (∀ pr ∈ modulos.zip offsets, k % pr.1 = pr.2 % pr.1) →
      k = crt_combine modulos offsets) := by
  have hM : 0 < modulos.prod := list_prod_pos hpos
  have hcong := crt_combine_mem_zip hlen hpos hcop
  refine ⟨?_, hcong, ?_⟩
  · unfold crt_combine
    exact Nat.mod_lt _ hM
  · intro k hk hkcong
    have hall : ∀ p ∈ modulos, k ≡ crt_combine modulos offsets [MOD p] := by
      intro p hp
      obtain ⟨⟨i, hi⟩, hget⟩ := List.mem_iff_get.mp hp
      have hzi : i < (modulos.zip offsets).length := by
        rw [List.length_zip, hlen, Nat.min_self]; exact hi
      have hio : i < offsets.length := by omega
      have hmem : (modulos.get ⟨i, hi⟩, offsets.get ⟨i, hio⟩) ∈
          modulos.zip offsets := by
        have := List.get_mem (modulos.zip offsets) i hzi
        rwa [List.get_zip] at this
      have h₁ := hkcong _ hmem
      have h₂ := hcong _ hmem
      show k % p = _ % p
      rw [← hget]
      exact h₁.trans h₂.symm
    have := modEq_of_forall_mem hcop hall
    have hcrt : crt_combine modulos offsets < modulos.prod := by
      unfold crt_combine; exact Nat.mod_lt _ hM
    rw [Nat.ModEq, Nat.mod_eq_of_lt hk, Nat.mod_eq_of_lt hcrt] at this
    exact this

/-- Witness for C1 at the spec's concrete instance: moduli `[3, 5, 7]` with
residues `[2, 3, 2]` reconstruct to `k = 23`. -/
theorem crt_combine_correct_witness :
    ([2, 3, 2] : List ℕ).length = ([3, 5, 7] : List ℕ).length ∧
    (∀ p ∈ ([3, 5, 7] : List ℕ), 0 < p) ∧
    ([3, 5, 7] : List ℕ).Pairwise Nat.Coprime ∧
    crt_combine [3, 5, 7] [2, 3, 2] = 23 ∧
    crt_combine [3, 5, 7] [2, 3, 2] < ([3, 5, 7] : List ℕ).prod ∧
    (∀ pr ∈ ([3, 5, 7] : List ℕ).zip [2, 3, 2],
      crt_combine [3, 5, 7] [2, 3, 2] % pr.1 = pr.2 % pr.1) :=
  ⟨by decide, by decide, by decide, by decide,
    (crt_combine_correct [3, 5, 7] [2, 3, 2] (by decide) (by decide)
      (by decide)).1,
    (crt_combine_correct [3, 5, 7] [2, 3, 2] (by decide) (by decide)
      (by decide)).2.1⟩

/-- From any odd running product, an odd step-2 scan always reaches a coprime
candidate: `2` is invertible modulo an odd product, so some `i + 2 * j` is
congruent to `1`. This backs termination of the modulus search loop. -/
lemma next_coprime_exists (product i : ℕ) (hP : 0 < product)
    (hodd : product % 2 = 1) : ∃ j, Nat.gcd (i + 2 * j) product = 1 := by
  rcases Nat.lt_or_ge 1 product with hP1 | hP1
  · have hcop2 : Nat.Coprime 2 product := by
      show Nat.gcd 2 product = 1
      rw [Nat.gcd_rec, hodd]
      exact Nat.gcd_one_left 2
    obtain ⟨u, hu⟩ := Nat.exists_mul_emod_eq_one_of_coprime hcop2 hP1
    set r := i % product with hr
    have hrlt : r < product := Nat.mod_lt _ hP
    refine ⟨u * (1 + product - r), ?_⟩
    have h2u : 2 * u ≡ 1 [MOD product] := by
      show 2 * u % product = 1 % product
      rw [hu, Nat.mod_eq_of_lt hP1]
    have hstep : i + 2 * (u * (1 + product - r)) ≡ 1 + product [MOD product] := by
      have h₁ : 2 * (u * (1 + product - r)) ≡ 1 * (1 + product - r) [MOD product] := by
        rw [← Nat.mul_assoc]
        exact Nat.ModEq.mul_right _ h2u
      have h₂ : i ≡ r [MOD product] := (Nat.mod_modEq i product).symm
      have h₃ : i + 2 * (u * (1 + product - r)) ≡ r + 1 * (1 + product - r)
          [MOD product] := Nat.ModEq.add h₂ h₁
      have h₄ : r + 1 * (1 + product - r) = 1 + product := by omega
      rwa [h₄] at h₃
    have hmod : (i + 2 * (u * (1 + product - r))) % product = 1 := by
      have := hstep.trans (show 1 + product ≡ 1 [MOD product] from
        Nat.add_mod_right 1 product)
      rw [Nat.ModEq, Nat.mod_eq_of_lt hP1] at this
      exact this
    rw [Nat.gcd_comm, Nat.gcd_rec, hmod]
    exact Nat.gcd_one_left product
  · have hP' : product = 1 := by omega
    exact ⟨0, by rw [hP']; exact Nat.gcd_one_right _⟩

/-- Embedding of the while loop of `find_coprime_numbers` (allyourbase.py
lines 51-55): while the running product is at most `m`, append the odd
candidate `i` whenever `gcd(i, product) == 1`, multiplying it into the
product, and always advance `i` by 2. The propositional arguments record the
loop invariants (positive odd product, odd candidate at least 3) needed for
termination. -/
def find_coprime_loop (m product i : ℕ) (coprimes : List ℕ)
    (hp : 0 < product) (hodd : product % 2 = 1)
    (hi : i % 2 = 1) (h3 : 3 ≤ i) : List ℕ :=
  if hle : product ≤ m then
    if hgcd : Nat.gcd i product = 1 then
      find_coprime_loop m (product * i) (i + 2) (coprimes ++ [i])
        (Nat.mul_pos hp (by omega)) (by rw [Nat.mul_mod, hodd, hi])
        (by omega) (by omega)
    else
      find_coprime_loop m product (i + 2) coprimes hp hodd (by omega) (by omega)
  else coprimes
termination_by (m + 1 - product, Nat.find (next_coprime_exists product i hp hodd))
decreasing_by
  · apply Prod.Lex.left
    have hlt : product < product * i :=
      (Nat.lt_mul_iff_one_lt_right hp).mpr (by omega)
    omega
  · apply Prod.Lex.right
    have hspec := Nat.find_spec (next_coprime_exists product i hp hodd)
    set j₀ := Nat.find (next_coprime_exists product i hp hodd) with hj₀def
    have hj₀ : j₀ ≠ 0 := by
      intro h0
      rw [h0] at hspec
      simp only [Nat.mul_zero, Nat.add_zero] at hspec
      exact hgcd hspec
    have hle' : Nat.find (next_coprime_exists product (i + 2)
        hp hodd) ≤ j₀ - 1 := by
      apply Nat.find_min'
      rw [show i + 2 + 2 * (j₀ - 1) = i + 2 * j₀ by omega]
      exact hspec
    omega

/-- Embedding of `find_coprime_numbers` (allyourbase.py lines 39-56):
start from the smallest odd integer strictly greater than `n`
(`i = n + 1 + n % 2`), accept it unconditionally, then run the candidate
loop from `i + 2`. -/
def find_coprime_numbers (n m : ℕ) : List ℕ :=
  find_coprime_loop m (n + 1 + n % 2) (n + 1 + n % 2 + 2) [n + 1 + n % 2]
    (by omega) (by omega) (by omega) (by omega)

/-- Hypotheses carried through the modulus search loop: a nonempty
accumulator whose product is the running product, strictly increasing, all
odd, pairwise coprime, and entirely below the next candidate. -/
def loop_hyps (i : ℕ) (coprimes : List ℕ) (product : ℕ) : Prop :=
  coprimes ≠ [] ∧ coprimes.prod = product ∧
  List.Chain' (· < ·) coprimes ∧ (∀ x ∈ coprimes, x % 2 = 1) ∧
  coprimes.Pairwise Nat.Coprime ∧ (∀ x ∈ coprimes, x < i)

/-- Conclusions of the modulus search loop: the accumulator is only extended,
the result is nonempty, its product exceeds `m`, it is strictly increasing,
all odd and pairwise coprime, new elements are at least `i`, and the product
of all but the last element stays at most `m` when that held on entry. -/
def loop_conc (m i : ℕ) (coprimes result : List ℕ) : Prop :=
  (∃ t, result = coprimes ++ t) ∧ result ≠ [] ∧ m < result.prod ∧
  List.Chain' (· < ·) result ∧ (∀ x ∈ result, x % 2 = 1) ∧
  result.Pairwise Nat.Coprime ∧
  (∀ x ∈ result, x ∈ coprimes ∨ i ≤ x) ∧
  (coprimes.dropLast.prod ≤ m → result.dropLast.prod ≤ m)

/-- Invariant propagation through the modulus search loop. -/
lemma find_coprime_loop_spec (m : ℕ) :
    ∀ (product i : ℕ) (coprimes : List ℕ) hp hodd hi h3,
    loop_hyps i coprimes product →
    loop_conc m i coprimes
      (find_coprime_loop m product i coprimes hp hodd hi h3) := by
  refine find_coprime_loop.induct m
    (motive := fun product i coprimes hp hodd hi h3 =>
      loop_hyps i coprimes product →
      loop_conc m i coprimes
        (find_coprime_loop m product i coprimes hp hodd hi h3)) ?_ ?_ ?_
  · intro product i coprimes hp hodd hi h3 hle hgcd ih hhyps
    obtain ⟨hne, hprod, hchain, helodd, hcop, hlt⟩ := hhyps
    rw [find_coprime_loop, dif_pos hle, dif_pos hgcd]
    have hne' : coprimes ++ [i] ≠ [] := by simp
    have hprod' : (coprimes ++ [i]).prod = product * i := by
      rw [List.prod_append, List.prod_cons, List.prod_nil, hprod]
      ring
    have hchain' : List.Chain' (· < ·) (coprimes ++ [i]) := by
      refine List.Chain'.append hchain (List.chain'_singleton i) ?_
      intro x hx y hy
      simp only [List.head?_cons, Option.mem_def, Option.some.injEq] at hy
      obtain ⟨hxl, rfl⟩ := List.mem_getLast?_eq_getLast hx
      subst hy
      exact hlt _ (List.getLast_mem _)
    have helodd' : ∀ x ∈ coprimes ++ [i], x % 2 = 1 := by
      intro x hx
      rcases List.mem_append.mp hx with h | h
      · exact helodd x h
      · simp only [List.mem_singleton] at h
        subst h; exact hi
    have hcop' : (coprimes ++ [i]).Pairwise Nat.Coprime := by
      refine List.pairwise_append.mpr ⟨hcop, List.pairwise_singleton _ _, ?_⟩
      intro a ha b hb
      simp only [List.mem_singleton] at hb
      subst hb
      have : Nat.Coprime b a :=
        Nat.Coprime.coprime_dvd_right (hprod ▸ List.dvd_prod ha) hgcd
      exact this.symm
    have hlt' : ∀ x ∈ coprimes ++ [i], x < i + 2 := by
      intro x hx
      rcases List.mem_append.mp hx with h | h
      · have := hlt x h; omega
      · simp only [List.mem_singleton] at h; omega
    obtain ⟨⟨t, ht⟩, hres_ne, hres_prod, hres_chain, hres_odd, hres_cop,
      hres_mem, hres_drop⟩ :=
      ih ⟨hne', hprod', hchain', helodd', hcop', hlt'⟩
    refine ⟨⟨i :: t, by rw [ht]; simp⟩, hres_ne, hres_prod, hres_chain,
      hres_odd, hres_cop, ?_, ?_⟩
    · intro x hx
      rcases hres_mem x hx with h | h
      · rcases List.mem_append.mp h with h' | h'
        · exact Or.inl h'
        · simp only [List.mem_singleton] at h'
          subst h'; exact Or.inr (le_refl x)
      · exact Or.inr (by omega)
    · intro _
      refine hres_drop ?_
      rw [List.dropLast_concat, hprod]
      exact hle
  · intro product i coprimes hp hodd hi h3 hle hgcd ih hhyps
    obtain ⟨hne, hprod, hchain, helodd, hcop, hlt⟩ := hhyps
    rw [find_coprime_loop, dif_pos hle, dif_neg hgcd]
    have hlt' : ∀ x ∈ coprimes, x < i + 2 := by
      intro x hx; have := hlt x hx; omega
    obtain ⟨hext, hres_ne, hres_prod, hres_chain, hres_odd, hres_cop,
      hres_mem, hres_drop⟩ :=
      ih ⟨hne, hprod, hchain, helodd, hcop, hlt'⟩
    refine ⟨hext, hres_ne, hres_prod, hres_chain, hres_odd, hres_cop,
      ?_, hres_drop⟩
    intro x hx
    rcases hres_mem x hx with h | h
    · exact Or.inl h
    · exact Or.inr (by omega)
  · intro product i coprimes hp hodd hi h3 hle hhyps
    obtain ⟨hne, hprod, hchain, helodd, hcop, hlt⟩ := hhyps
    rw [find_coprime_loop, dif_neg hle]
    exact ⟨⟨[], by simp⟩, hne, by rw [hprod]; omega, hchain, helodd, hcop,
      fun x hx => Or.inl hx, fun h => h⟩

/-- C2 (amended): for any bounds `n` and `m` with `m ≥ 1`, the list returned
by `find_coprime_numbers` is strictly increasing, consists only of odd
integers strictly greater than `n`, is pairwise coprime, its full product
exceeds `m`, and the product of the list with its last element removed does
not exceed `m`. (For `m = 0` the last conjunct fails: the list is the single
unconditionally accepted first candidate and the empty product `1` already
exceeds `m`.) -/
theorem find_coprime_numbers_spec (n m : ℕ) (hm : 0 < m) :
    List.Pairwise (· < ·) (find_coprime_numbers n m) ∧
    (∀ x ∈ find_coprime_numbers n m, x % 2 = 1 ∧ n < x) ∧
    (find_coprime_numbers n m).Pairwise Nat.Coprime ∧
    m < (find_coprime_numbers n m).prod ∧
    (find_coprime_numbers n m).dropLast.prod ≤ m := by
  have h := find_coprime_loop_spec m (n + 1 + n % 2) (n + 1 + n % 2 + 2)
    [n + 1 + n % 2] (by omega) (by omega) (by omega) (by omega)
    ⟨by simp, by simp, List.chain'_singleton _, by intro x hx; simp at hx; omega,
      List.pairwise_singleton _ _, by intro x hx; simp at hx; omega⟩
  obtain ⟨hext, hne, hprod, hchain, hodd, hcop, hmem, hdrop⟩ := h
  have hres : find_coprime_numbers n m =
      find_coprime_loop m (n + 1 + n % 2) (n + 1 + n % 2 + 2) [n + 1 + n % 2]
        (by omega) (by omega) (by omega) (by omega) := rfl
  rw [hres]
  refine ⟨List.chain'_iff_pairwise.mp hchain, ?_, hcop, hprod, ?_⟩
  · intro x hx
    refine ⟨hodd x hx, ?_⟩
    rcases hmem x hx with h | h
    · simp only [List.mem_singleton] at h
      omega
    · omega
  · refine hdrop ?_
    simpa using hm

/-- Counterexample to C2 as stated: at bounds `n = 0`, `m = 0` the returned
list is `[1]`, whose all-but-last product is the empty product `1 > 0 = m`. -/
theorem find_coprime_numbers_counterexample :
    ¬ ((find_coprime_numbers 0 0).dropLast.prod ≤ 0) := by
  have h : find_coprime_numbers 0 0 = [1] := by
    unfold find_coprime_numbers find_coprime_loop
    norm_num
  rw [h]
  simp

/-- Witness for C2 (amended) at the concrete bounds `n = 3`, `m = 100`
(where `find_coprime_numbers 3 100 = [5, 7, 9]`). -/
theorem find_coprime_numbers_spec_witness :
    (0 : ℕ) < 100 ∧
    (List.Pairwise (· < ·) (find_coprime_numbers 3 100) ∧
    (∀ x ∈ find_coprime_numbers 3 100, x % 2 = 1 ∧ 3 < x) ∧
    (find_coprime_numbers 3 100).Pairwise Nat.Coprime ∧
    100 < (find_coprime_numbers 3 100).prod ∧
    (find_coprime_numbers 3 100).dropLast.prod ≤ 100) :=
  ⟨by decide, find_coprime_numbers_spec 3 100 (by decide)⟩

/-- C10: for every lower bound `n` and every upper bound `m` (even when `m`
is smaller than the first candidate), `find_coprime_numbers` returns a
non-empty list whose first element is `n + 1 + n % 2`, and the modulus
product is at least that first element. -/
theorem find_coprime_numbers_head (n m : ℕ) :
    find_coprime_numbers n m ≠ [] ∧
    (find_coprime_numbers n m).head? = some (n + 1 + n % 2) ∧
    n + 1 + n % 2 ≤ (find_coprime_numbers n m).prod := by
  have h := find_coprime_loop_spec m (n + 1 + n % 2) (n + 1 + n % 2 + 2)
    [n + 1 + n % 2] (by omega) (by omega) (by omega) (by omega)
    ⟨by simp, by simp, List.chain'_singleton _, by intro x hx; simp at hx; omega,
      List.pairwise_singleton _ _, by intro x hx; simp at hx; omega⟩
  obtain ⟨⟨t, ht⟩, hne, hprod, hchain, hodd, hcop, hmem, hdrop⟩ := h
  have hres : find_coprime_numbers n m =
      find_coprime_loop m (n + 1 + n % 2) (n + 1 + n % 2 + 2) [n + 1 + n % 2]
        (by omega) (by omega) (by omega) (by omega) := rfl
  rw [hres, ht]
  refine ⟨by simp, by simp, ?_⟩
  rw [show [n + 1 + n % 2] ++ t = (n + 1 + n % 2) :: t by simp,
    List.prod_cons]
  have htpos : 0 < t.prod := by
    refine list_prod_pos fun x hx => ?_
    have : x % 2 = 1 := by
      refine hodd x ?_
      rw [ht]
      simp [hx]
    omega
  exact Nat.le_mul_of_pos_right _ htpos

/-- Embedding of the pointer-target histogram of `find_max_overlap`
(allyourbase.py lines 68, 70-71): `a[x % p] += 1` over the set `A`, so entry
`j` counts the elements of `A` with residue `j` modulo `p`. -/
def histA (A : Finset ℕ) (p j : ℕ) : ℕ :=
  (A.filter fun x => x % p = j).card

/-- Embedding of the reversed string-offset histogram of `find_max_overlap`
(allyourbase.py lines 69, 72-74): `b[-(x % p)] += 1` over the set `B`;
numpy's negative indexing makes this entry `(p - x % p) % p`. -/
def histB (B : Finset ℕ) (p j : ℕ) : ℕ :=
  (B.filter fun x => (p - x % p) % p = j).card

/-- Embedding of the correlation of `find_max_overlap` (allyourbase.py line
76): `np.fft.ifft(np.fft.fft(a) * np.fft.fft(b)).real` is, by the
convolution theorem, the circular convolution of the two length-`p`
histograms; entry `k` is `Σ_j a[j] * b[(k - j) mod p]`. On these integer
histograms the transform computes exact integer counts. -/
def corr (A B : Finset ℕ) (p k : ℕ) : ℕ :=
  ∑ j ∈ Finset.range p, histA A p j * histB B p ((k + p - j) % p)

/-- Embedding of `np.argmax` (allyourbase.py line 77): the index of the
first occurrence of the maximum value of the list. -/
def argmaxFirst (l : List ℕ) : ℕ :=
  l.indexOf (l.foldr max 0)

/-- The per-modulus local offset recorded by `find_max_overlap`
(allyourbase.py lines 67-78): the first index of the length-`p` correlation
array attaining its maximum. -/
def localOffset (A B : Finset ℕ) (p : ℕ) : ℕ :=
  argmaxFirst ((List.range p).map (corr A B p))

/-- Embedding of `find_max_overlap` (allyourbase.py lines 59-87): one local
offset per modulus, combined by the Chinese remainder theorem. (The progress
printing on stderr is operational output with no algorithmic effect.) -/
def find_max_overlap (A B : Finset ℕ) (modulos : List ℕ) : ℕ :=
  crt_combine modulos (modulos.map (localOffset A B))

lemma le_foldr_max {l : List ℕ} {x : ℕ} (hx : x ∈ l) : x ≤ l.foldr max 0 := by
  induction l with
  | nil => simp at hx
  | cons a t ih =>
    rcases List.mem_cons.mp hx with h | h
    · subst h; exact le_max_left _ _
    · exact le_trans (ih h) (le_max_right _ _)

lemma foldr_max_mem {l : List ℕ} (h : l ≠ []) : l.foldr max 0 ∈ l := by
  induction l with
  | nil => exact absurd rfl h
  | cons a t ih =>
    rcases eq_or_ne t [] with ht | ht
    · subst ht; simp
    · rcases max_choice a (t.foldr max 0) with hm | hm
      · simp only [List.foldr_cons, hm]
        exact List.mem_cons_self a t
      · simp only [List.foldr_cons, hm]
        exact List.mem_cons_of_mem a (ih ht)

lemma indexOf_eq_of_first {l : List ℕ} {i : ℕ} {v : ℕ} (hi : i < l.length)
    (hv : l.get ⟨i, hi⟩ = v) (hfirst : ∀ j (hj : j < i),
      l.get ⟨j, lt_trans hj hi⟩ ≠ v) : l.indexOf v = i := by
  induction l generalizing i with
  | nil => simp at hi
  | cons a t ih =>
    cases i with
    | zero =>
      simp only [List.get] at hv
      subst hv
      simp [List.indexOf_cons]
    | succ i' =>
      have ha : a ≠ v := by
        have := hfirst 0 (by omega)
        simpa using this
      have hi' : i' < t.length := by simpa using hi
      have hv' : t.get ⟨i', hi'⟩ = v := by simpa using hv
      have hfirst' : ∀ j (hj : j < i'), t.get ⟨j, lt_trans hj hi'⟩ ≠ v := by
        intro j hj
        have := hfirst (j + 1) (by omega)
        simpa using this
      have := ih hi' hv' hfirst'
      have hbeq : (a == v) = false := beq_eq_false_iff_ne.mpr ha
      rw [List.indexOf_cons, hbeq, cond_false, this]


/-- The first-maximum index of a list with a strict maximum at `i` is `i`. -/
lemma argmaxFirst_eq_of_strict {l : List ℕ} {i : ℕ} (hi : i < l.length)
    (h : ∀ j (hj : j < l.length), j ≠ i → l.get ⟨j, hj⟩ < l.get ⟨i, hi⟩) :
    argmaxFirst l = i := by
  have hne : l ≠ [] := by
    intro h0; subst h0; simp at hi
  have hmax_mem : l.foldr max 0 ∈ l := foldr_max_mem hne
  obtain ⟨⟨j, hj⟩, hget⟩ := List.mem_iff_get.mp hmax_mem
  have hveq : l.get ⟨i, hi⟩ = l.foldr max 0 := by
    rcases eq_or_ne j i with rfl | hji
    · exact hget
    · have h1 : l.get ⟨j, hj⟩ < l.get ⟨i, hi⟩ := h j hj hji
      have h2 : l.get ⟨i, hi⟩ ≤ l.foldr max 0 :=
        le_foldr_max (l.get_mem _ _)
      omega
  refine indexOf_eq_of_first hi hveq ?_
  intro j' hj' hcontra
  have hlt : l.get ⟨j', lt_trans hj' hi⟩ < l.get ⟨i, hi⟩ :=
    h j' (lt_trans hj' hi) (by omega)
  rw [hcontra, ← hveq] at hlt
  exact lt_irrefl _ hlt

/-- The first-maximum index of a nonempty list is a valid index. -/
lemma argmaxFirst_lt_length {l : List ℕ} (h : l ≠ []) :
    argmaxFirst l < l.length :=
  List.indexOf_lt_length.mpr (foldr_max_mem h)

/-- C9: every per-modulus local offset recorded by `find_max_overlap` lies in
`[0, p)` for its modulus `p` (it is the argmax index of a length-`p`
correlation array), so the residues fed into the CRT combination are valid
residues of their respective moduli. -/
theorem localOffset_lt (A B : Finset ℕ) (p : ℕ) (hp : 0 < p) :
    localOffset A B p < p := by
  have hne : (List.range p).map (corr A B p) ≠ [] := by
    simp [List.map_eq_nil_iff, List.range_eq_nil]
    omega
  have := argmaxFirst_lt_length hne
  rwa [List.length_map, List.length_range] at this

/-- Witness for C9 at the concrete modulus `3` with singleton input sets. -/
theorem localOffset_lt_witness :
    (0 : ℕ) < 3 ∧ localOffset {5} {1} 3 < 3 :=
  ⟨by decide, localOffset_lt {5} {1} 3 (by decide)⟩

lemma foldr_max_replicate_zero (n : ℕ) :
    (List.replicate n 0).foldr max 0 = 0 := by
  induction n with
  | zero => rfl
  | succ n ih => simpa [List.replicate_succ] using ih

lemma argmaxFirst_replicate_zero (n : ℕ) :
    argmaxFirst (List.replicate n 0) = 0 := by
  unfold argmaxFirst
  rw [foldr_max_replicate_zero]
  cases n with
  | zero => rfl
  | succ n => simp [List.replicate_succ]

lemma corr_empty_left (B : Finset ℕ) (p k : ℕ) : corr ∅ B p k = 0 := by
  simp [corr, histA]

lemma corr_empty_right (A : Finset ℕ) (p k : ℕ) : corr A ∅ p k = 0 := by
  simp [corr, histB]

lemma localOffset_empty_left (B : Finset ℕ) (p : ℕ) :
    localOffset ∅ B p = 0 := by
  unfold localOffset
  rw [show (List.range p).map (corr ∅ B p) = List.replicate p 0 by
    rw [List.map_congr_left fun k _ => corr_empty_left B p k]
    simp [List.map_const']]
  exact argmaxFirst_replicate_zero p

lemma localOffset_empty_right (A : Finset ℕ) (p : ℕ) :
    localOffset A ∅ p = 0 := by
  unfold localOffset
  rw [show (List.range p).map (corr A ∅ p) = List.replicate p 0 by
    rw [List.map_congr_left fun k _ => corr_empty_right A p k]
    simp [List.map_const']]
  exact argmaxFirst_replicate_zero p

lemma crt_combine_all_zero {modulos offsets : List ℕ}
    (h : ∀ r ∈ offsets, r = 0) : crt_combine modulos offsets = 0 := by
  unfold crt_combine
  rw [List.sum_eq_zero, Nat.zero_mod]
  intro x hx
  obtain ⟨⟨q, s⟩, hqs, rfl⟩ := List.mem_map.mp hx
  obtain ⟨-, hs⟩ := List.of_mem_zip hqs
  rw [h s hs]
  ring

/-- With an empty string-offset set (or an empty pointer-target set) every
histogram, hence every correlation array, is all-zero; `np.argmax` then
selects index `0` for every modulus and the CRT combination yields `0`. -/
lemma find_max_overlap_empty (A : Finset ℕ) (modulos : List ℕ) :
    find_max_overlap A ∅ modulos = 0 ∧ find_max_overlap ∅ A modulos = 0 := by
  constructor
  · refine crt_combine_all_zero fun r hr => ?_
    obtain ⟨p, -, rfl⟩ := List.mem_map.mp hr
    exact localOffset_empty_right A p
  · refine crt_combine_all_zero fun r hr => ?_
    obtain ⟨p, -, rfl⟩ := List.mem_map.mp hr
    exact localOffset_empty_left A p

/-- One byte of the string character class of `get_string_addresses`
(allyourbase.py line 17): tab, LF, FF, CR or printable ASCII `0x20-0x7E`. -/
def is_string_byte (b : ℕ) : Prop :=
  b = 9 ∨ b = 10 ∨ b = 12 ∨ b = 13 ∨ (0x20 ≤ b ∧ b ≤ 0x7E)

instance (b : ℕ) : Decidable (is_string_byte b) := by
  unfold is_string_byte; infer_instance

/-- A UTF-8 continuation byte (allyourbase.py lines 18-20): `0x80-0xBF`. -/
def is_cont_byte (b : ℕ) : Prop := 0x80 ≤ b ∧ b ≤ 0xBF

instance (b : ℕ) : Decidable (is_cont_byte b) := by
  unfold is_cont_byte; infer_instance

/-- Length in bytes of one unit of the string regex of
`get_string_addresses` (allyourbase.py lines 17-20) at the head of the
remaining blob: a printable/whitespace ASCII byte, or a 2-4 byte UTF-8-like
lead/continuation sequence (overlong encodings and surrogates included, as
in the source); `none` when no unit starts here. Each unit's length is
determined by its lead byte, so regex alternation is deterministic. -/
def utf8_unit_len : List ℕ → Option ℕ
  | [] => none
  | b :: rest =>
    if is_string_byte b then some 1
    else if 0xC2 ≤ b ∧ b ≤ 0xDF then
      match rest with
      | c1 :: _ => if is_cont_byte c1 then some 2 else none
      | [] => none
    else if 0xE0 ≤ b ∧ b ≤ 0xEF then
      match rest with
      | c1 :: c2 :: _ =>
        if is_cont_byte c1 ∧ is_cont_byte c2 then some 3 else none
      | _ => none
    else if 0xF0 ≤ b ∧ b ≤ 0xF4 then
      match rest with
      | c1 :: c2 :: c3 :: _ =>
        if is_cont_byte c1 ∧ is_cont_byte c2 ∧ is_cont_byte c3 then some 4
        else none
      | _ => none
    else none

/-- The maximal run of regex units at the head of the remaining blob:
`(number of units, number of bytes)`. Fuel bounds the recursion; any fuel at
least the list length is enough since every unit consumes a byte. -/
def run_units (fuel : ℕ) (l : List ℕ) : ℕ × ℕ :=
  match fuel with
  | 0 => (0, 0)
  | fuel + 1 =>
    match utf8_unit_len l with
    | none => (0, 0)
    | some k =>
      let r := run_units fuel (l.drop k)
      (r.1 + 1, r.2 + k)

/-- The `re.finditer` loop of `get_string_addresses` (allyourbase.py line
23): at each position, a match is a maximal unit run of at least `n` units
followed by a NUL byte (no unit byte is NUL, so the greedy `{n,}` regex
matches exactly these); matches are leftmost and non-overlapping, and their
start offsets are collected. -/
def scan_strings (n fuel : ℕ) (l : List ℕ) (pos : ℕ) (acc : Finset ℕ) :
    Finset ℕ :=
  match fuel with
  | 0 => acc
  | fuel + 1 =>
    match l with
    | [] => acc
    | _ :: _ =>
      let r := run_units l.length l
      if n ≤ r.1 ∧ l.getD r.2 1 = 0 then
        scan_strings n fuel (l.drop (r.2 + 1)) (pos + r.2 + 1) (insert pos acc)
      else
        scan_strings n fuel (l.drop 1) (pos + 1) acc

/-- Embedding of `get_string_addresses` (allyourbase.py lines 10-23): the set
of start offsets of NUL-terminated printable/UTF-8-like runs of at least `n`
units. -/
def get_string_addresses (b : List ℕ) (n : ℕ) : Finset ℕ :=
  scan_strings n (b.length + 1) b 0 ∅

/-- Pointer endianness (allyourbase.py line 97, argparse choices). -/
inductive Endian where
  | little : Endian
  | big : Endian
deriving DecidableEq

/-- The scanned start offsets of `get_pointed_addresses` (allyourbase.py
line 32): Python `range(0, len(b) - length + 1, align)`, i.e. the multiples
of `align` below `len(b) - length + 1` (empty when that stop is not
positive, which the truncated subtraction reproduces). -/
def scan_offsets (L length align : ℕ) : List ℕ :=
  List.range' 0 ((L + 1 - length + align - 1) / align) align

/-- Embedding of Python `int.from_bytes(b[i:i+length], byteorder=endian)`
(allyourbase.py lines 33-34): the unsigned integer with the given
byte order. -/
def decode_uint (b : List ℕ) (endian : Endian) (i length : ℕ) : ℕ :=
  match endian with
  | .little => ∑ t ∈ Finset.range length, b.getD (i + t) 0 * 256 ^ t
  | .big => ∑ t ∈ Finset.range length, b.getD (i + t) 0 * 256 ^ (length - 1 - t)

/-- Embedding of `get_pointed_addresses` (allyourbase.py lines 26-36): decode
a `length`-byte unsigned integer at every `align`-aligned window and collect
the results into a set. -/
def get_pointed_addresses (b : List ℕ) (endian : Endian) (length align : ℕ) :
    Finset ℕ :=
  (scan_offsets b.length length align).foldl
    (fun s i => insert (decode_uint b endian i length) s) ∅

/-- The final report of the `__main__` driver (allyourbase.py lines
122-128): a negative offset, a positive offset, or `not found`. -/
inductive Report where
  | negOffset : ℕ → Report
  | posOffset : ℕ → Report
  | notFound : Report
deriving DecidableEq

/-- Embedding of the `__main__` pipeline (allyourbase.py lines 113-128):
extract strings and pointers, build the moduli from the slack lower bound
and the upper bound `2^(l*8) + len(b)`, correlate, and interpret the CRT
result. `slack_lower` stands for `int(len(b) * args.f)`; the floating-point
slack product is abstracted as an arbitrary natural lower bound. -/
def allyourbase_run (b : List ℕ) (slack_lower n l a : ℕ) (e : Endian) :
    Report :=
  let strings := get_string_addresses b n
  let pointers := get_pointed_addresses b e l a
  let modulos := find_coprime_numbers slack_lower (2 ^ (l * 8) + b.length)
  let offset := find_max_overlap pointers strings modulos
  let negative_offset := modulos.prod - offset
  if negative_offset < b.length then Report.negOffset negative_offset
  else if offset < 2 ^ (l * 8) then Report.posOffset offset
  else Report.notFound

/-- C6: given the CRT result `k` and `M` the product of all moduli: if
`M - k` is less than the blob length `L`, the program reports the negative
offset `-(M - k)`; otherwise, if `k < 2^(l*8)` for pointer width `l`, it
reports the positive offset `k`; otherwise it reports `not found`
(allyourbase.py lines 122-128). -/
theorem allyourbase_run_interpretation (b : List ℕ)
    (slack_lower n l a : ℕ) (e : Endian) (ms : List ℕ) (k : ℕ)
    (hms : ms = find_coprime_numbers slack_lower (2 ^ (l * 8) + b.length))
    (hk : k = find_max_overlap (get_pointed_addresses b e l a)
      (get_string_addresses b n) ms) :
    (ms.prod - k < b.length →
      allyourbase_run b slack_lower n l a e = Report.negOffset (ms.prod - k)) ∧
    (¬ (ms.prod - k < b.length) → k < 2 ^ (l * 8) →
      allyourbase_run b slack_lower n l a e = Report.posOffset k) ∧
    (¬ (ms.prod - k < b.length) → ¬ (k < 2 ^ (l * 8)) →
      allyourbase_run b slack_lower n l a e = Report.notFound) := by
  subst hms
  subst hk
  refine ⟨fun h1 => ?_, fun h1 h2 => ?_, fun h1 h2 => ?_⟩
  · simp only [allyourbase_run]
    rw [if_pos h1]
  · simp only [allyourbase_run]
    rw [if_neg h1, if_pos h2]
  · simp only [allyourbase_run]
    rw [if_neg h1, if_neg h2]

/-- Witness for C6 on the empty blob with pointer width `0`: there the
moduli are `[1, 3]`, the CRT result is `0`, the negative branch is not
taken (`3 - 0 ≥ 0 = L`) and `0 < 2^0` reports the positive offset `0`. -/
theorem allyourbase_run_interpretation_witness :
    ¬ (([1, 3] : List ℕ).prod - 0 < ([] : List ℕ).length) ∧
    (0 : ℕ) < 2 ^ (0 * 8) ∧
    allyourbase_run [] 0 5 0 1 Endian.little = Report.posOffset 0 := by
  have hms : ([1, 3] : List ℕ) =
      find_coprime_numbers 0 (2 ^ (0 * 8) + ([] : List ℕ).length) := by
    show ([1, 3] : List ℕ) = find_coprime_numbers 0 1
    unfold find_coprime_numbers
    unfold find_coprime_loop
    norm_num
    unfold find_coprime_loop
    norm_num
  have hstr : get_string_addresses [] 5 = ∅ := rfl
  have hk : 0 = find_max_overlap (get_pointed_addresses [] Endian.little 0 1)
      (get_string_addresses [] 5) [1, 3] := by
    rw [hstr]
    exact ((find_max_overlap_empty
      (get_pointed_addresses [] Endian.little 0 1) [1, 3]).1).symm
  have h := allyourbase_run_interpretation [] 0 5 0 1 Endian.little [1, 3] 0
    hms hk
  exact ⟨by decide, by decide, h.2.1 (by decide) (by decide)⟩

/-- C3 (code behaviour at the failing input): with an empty string set or an
empty pointer set the correlation arrays are all zero, `np.argmax` returns
`0` everywhere, the CRT result is `k = 0`, and since the modulus product
exceeds `2^(l*8) + L` the driver takes the positive branch and prints
`Offset: 0x0` - it does NOT report `not found` as the spec requires. -/
theorem allyourbase_run_empty_reports_zero (b : List ℕ)
    (slack_lower n l a : ℕ) (e : Endian)
    (h : get_string_addresses b n = ∅ ∨ get_pointed_addresses b e l a = ∅) :
    allyourbase_run b slack_lower n l a e = Report.posOffset 0 := by
  have hm : 0 < 2 ^ (l * 8) + b.length :=
    Nat.lt_of_lt_of_le (Nat.two_pow_pos (l * 8)) (Nat.le_add_right _ _)
  have hprod := (find_coprime_numbers_spec slack_lower
    (2 ^ (l * 8) + b.length) hm).2.2.2.1
  have hk : find_max_overlap (get_pointed_addresses b e l a)
      (get_string_addresses b n)
      (find_coprime_numbers slack_lower (2 ^ (l * 8) + b.length)) = 0 := by
    rcases h with h | h
    · rw [h]
      exact (find_max_overlap_empty _ _).1
    · rw [h]
      exact (find_max_overlap_empty _ _).2
  have h2 := Nat.two_pow_pos (l * 8)
  simp only [allyourbase_run]
  rw [hk, Nat.sub_zero, if_neg (by omega), if_pos (Nat.two_pow_pos (l * 8))]

/-- Witness for C3's code-behaviour theorem: the empty blob has an empty
string set, and the program reports offset `0`. -/
theorem allyourbase_run_empty_reports_zero_witness :
    (get_string_addresses [] 5 = ∅ ∨
      get_pointed_addresses [] Endian.little 8 8 = ∅) ∧
    allyourbase_run [] 0 5 8 8 Endian.little = Report.posOffset 0 :=
  ⟨Or.inl rfl,
    allyourbase_run_empty_reports_zero [] 0 5 8 8 Endian.little (Or.inl rfl)⟩

/-- C8: the computation is deterministic: two runs on an identical blob with
identical configuration produce identical final output; in particular
`get_string_addresses` returns the same offset set on repeated identical
inputs. (The embedding is a pure function of the blob and the
configuration; no other state exists.) -/
theorem allyourbase_run_deterministic (b₁ b₂ : List ℕ)
    (s₁ s₂ n₁ n₂ l₁ l₂ a₁ a₂ : ℕ) (e₁ e₂ : Endian)
    (hb : b₁ = b₂) (hs : s₁ = s₂) (hn : n₁ = n₂) (hl : l₁ = l₂)
    (ha : a₁ = a₂) (he : e₁ = e₂) :
    allyourbase_run b₁ s₁ n₁ l₁ a₁ e₁ = allyourbase_run b₂ s₂ n₂ l₂ a₂ e₂ ∧
    get_string_addresses b₁ n₁ = get_string_addresses b₂ n₂ := by
  subst hb hs hn hl ha he
  exact ⟨rfl, rfl⟩

/-- Witness for C8 at a concrete repeated run. -/
theorem allyourbase_run_deterministic_witness :
    ([72, 105, 0] : List ℕ) = [72, 105, 0] ∧
    (allyourbase_run [72, 105, 0] 0 2 1 1 Endian.little =
      allyourbase_run [72, 105, 0] 0 2 1 1 Endian.little ∧
    get_string_addresses [72, 105, 0] 2 =
      get_string_addresses [72, 105, 0] 2) :=
  ⟨rfl, allyourbase_run_deterministic [72, 105, 0] [72, 105, 0] 0 0 2 2 1 1
    1 1 Endian.little Endian.little rfl rfl rfl rfl rfl rfl⟩

lemma foldl_insert_eq_image (f : ℕ → ℕ) :
    ∀ (l : List ℕ) (s : Finset ℕ),
    l.foldl (fun s i => insert (f i) s) s = s ∪ l.toFinset.image f := by
  intro l
  induction l with
  | nil => intro s; simp
  | cons a t ih =>
    intro s
    rw [List.foldl_cons, ih]
    ext x
    simp only [Finset.mem_union, Finset.mem_insert, List.toFinset_cons,
      Finset.image_insert, Finset.mem_image]
    tauto

lemma mem_scan_offsets {L W A : ℕ} (hA : 0 < A) (x : ℕ) :
    x ∈ scan_offsets L W A ↔ ∃ j : ℕ, x = A * j ∧ A * j + W ≤ L := by
  unfold scan_offsets
  rw [List.mem_range']
  constructor
  · rintro ⟨j, hj, rfl⟩
    have h1 : (j + 1) * A ≤ L + 1 - W + A - 1 :=
      (Nat.le_div_iff_mul_le hA).mp hj
    rw [Nat.add_mul, Nat.one_mul, Nat.mul_comm] at h1
    exact ⟨j, by omega, by omega⟩
  · rintro ⟨j, rfl, hle⟩
    refine ⟨j, ?_, by omega⟩
    refine (Nat.le_div_iff_mul_le hA).mpr ?_
    rw [Nat.succ_mul, Nat.mul_comm]
    omega

/-- C7: the set returned by `get_pointed_addresses` is exactly the decoded
unsigned integers of the windows `b[i..i+W)` at every `i` among
`0, A, 2A, ...` with `i + W ≤ len(b)`, and building the set from the scan
list in any other order (any permutation) yields the same set. -/
theorem get_pointed_addresses_spec (b : List ℕ) (e : Endian) (W A x : ℕ)
    (l : List ℕ) (hA : 0 < A)
    (hperm : l.Perm (scan_offsets b.length W A)) :
    (x ∈ get_pointed_addresses b e W A ↔
      ∃ j : ℕ, A * j + W ≤ b.length ∧ x = decode_uint b e (A * j) W) ∧
    l.foldl (fun s i => insert (decode_uint b e i W) s) ∅ =
      get_pointed_addresses b e W A := by
  have himg : get_pointed_addresses b e W A =
      (scan_offsets b.length W A).toFinset.image
        (fun i => decode_uint b e i W) := by
    unfold get_pointed_addresses
    rw [foldl_insert_eq_image]
    exact Finset.empty_union _
  constructor
  · rw [himg]
    simp only [Finset.mem_image, List.mem_toFinset]
    constructor
    · rintro ⟨i, hi, rfl⟩
      obtain ⟨j, rfl, hle⟩ := (mem_scan_offsets hA i).mp hi
      exact ⟨j, hle, rfl⟩
    · rintro ⟨j, hle, rfl⟩
      exact ⟨A * j, (mem_scan_offsets hA _).mpr ⟨j, rfl, hle⟩, rfl⟩
  · rw [himg, foldl_insert_eq_image, Finset.empty_union]
    congr 1
    ext y
    simp only [List.mem_toFinset]
    exact hperm.mem_iff

/-- Witness for C7 on the two-byte blob `[1, 0]` with width 1, stride 1,
scanning the offsets in reversed order. -/
theorem get_pointed_addresses_spec_witness :
    (0 : ℕ) < 1 ∧
    List.Perm [1, 0] (scan_offsets ([1, 0] : List ℕ).length 1 1) ∧
    ((1 ∈ get_pointed_addresses [1, 0] Endian.little 1 1 ↔
      ∃ j : ℕ, 1 * j + 1 ≤ ([1, 0] : List ℕ).length ∧
        1 = decode_uint [1, 0] Endian.little (1 * j) 1) ∧
    ([1, 0] : List ℕ).foldl
        (fun s i => insert (decode_uint [1, 0] Endian.little i 1) s) ∅ =
      get_pointed_addresses [1, 0] Endian.little 1 1) :=
  ⟨by decide, by decide,
    get_pointed_addresses_spec [1, 0] Endian.little 1 1 1 [1, 0]
      (by decide) (by decide)⟩

/-- Configuration of the `__main__` driver as parsed by argparse
(allyourbase.py lines 91-103): minimum string length `-n`, pointer width
`-l`, alignment `-a`, endianness `-e`. The slack factor is a float and
does not participate in any pre-extraction check. -/
structure MainConfig where
  n : Int
  l : Int
  a : Int
  e : String

/-- The complete pre-extraction vetting performed by the `__main__` driver
(allyourbase.py lines 91-111): argparse rejects an endianness outside
`choices=["little", "big"]` (line 98); no other check exists - `n`, `l` and
`a` are converted to integers but never range-checked, and no bound
comparison is made for the slack factor. -/
def config_rejected (c : MainConfig) : Bool :=
  !(c.e == "little" || c.e == "big")

/-- An invalid configuration in the sense of C5: non-positive minimum string
length, pointer width or alignment, or an unsupported endianness. (The
slack-factor bound condition involves float arithmetic and is
unrepresentable here; it is likewise unchecked by the program.) -/
def config_invalid (c : MainConfig) : Prop :=
  c.n ≤ 0 ∨ c.l ≤ 0 ∨ c.a ≤ 0 ∨ (c.e ≠ "little" ∧ c.e ≠ "big")

/-- Counterexample to C5 as stated: the configuration `n = 0` (non-positive
minimum string length) with valid endianness is invalid but is not rejected
before extraction - the program runs the whole pipeline with it. -/
theorem config_counterexample :
    config_invalid ⟨0, 8, 8, "little"⟩ ∧
    config_rejected ⟨0, 8, 8, "little"⟩ = false :=
  ⟨Or.inl (le_refl 0), rfl⟩

/-- C5 (amended): the only configurations rejected before any extraction on
the blob are those with an unsupported endianness (argparse `choices`);
non-positive `n`, `l` or `a` and slack-factor bound inversions pass into
extraction unchecked. -/
theorem config_rejected_iff (c : MainConfig) :
    config_rejected c = true ↔ c.e ≠ "little" ∧ c.e ≠ "big" := by
  unfold config_rejected
  simp [not_or]

/-- The histogram index condition of the convolution, rephrased in
`ZMod p`: entry `(k - j) mod p` of the reversed histogram is hit by `y`
precisely when `x ≡ y + k (mod p)` for the `x` contributing to entry `j`. -/
lemma corr_cond_iff {p : ℕ} (hp : 0 < p) (x y k : ℕ) :
    (p - y % p) % p = (k + p - x % p) % p ↔ (x : ZMod p) = y + k := by
  rw [← ZMod.natCast_eq_natCast_iff']
  have hy : y % p ≤ p := le_of_lt (Nat.mod_lt _ hp)
  have hx : x % p ≤ k + p := le_trans (le_of_lt (Nat.mod_lt _ hp)) (by omega)
  rw [Nat.cast_sub hy, Nat.cast_sub hx, Nat.cast_add,
    ZMod.natCast_mod y p, ZMod.natCast_mod x p, ZMod.natCast_self]
  constructor
  · intro h
    linear_combination h
  · intro h
    linear_combination h

/-- The circular convolution of the two histograms counts, for each shift
`k`, the pairs `(x, y)` of pointer target and string offset with
`x ≡ y + k (mod p)`. -/
lemma corr_eq_sum_pairs (A B : Finset ℕ) {p : ℕ} (hp : 0 < p) (k : ℕ) :
    corr A B p k =
      ∑ x ∈ A, ∑ y ∈ B, if (x : ZMod p) = y + k then 1 else 0 := by
  unfold corr histA histB
  simp only [Finset.card_filter]
  rw [Finset.sum_congr rfl fun j _ => Finset.sum_mul_sum A B _ _]
  rw [Finset.sum_comm]
  refine Finset.sum_congr rfl fun x _ => ?_
  rw [Finset.sum_comm]
  refine Finset.sum_congr rfl fun y _ => ?_
  have hstep : ∀ j ∈ Finset.range p,
      (if x % p = j then (1 : ℕ) else 0) *
        (if (p - y % p) % p = (k + p - j) % p then (1 : ℕ) else 0) =
      if x % p = j then
        (if (p - y % p) % p = (k + p - j) % p then (1 : ℕ) else 0) else 0 := by
    intro j _
    rcases em (x % p = j) with h | h
    · rw [if_pos h, if_pos h, one_mul]
    · rw [if_neg h, if_neg h, zero_mul]
  rw [Finset.sum_congr rfl hstep, Finset.sum_ite_eq]
  rw [if_pos (Finset.mem_range.mpr (Nat.mod_lt _ hp))]
  rcases em ((x : ZMod p) = y + k) with h | h
  · rw [if_pos ((corr_cond_iff hp x y k).mpr h), if_pos h]
  · rw [if_neg (fun hc => h ((corr_cond_iff hp x y k).mp hc)), if_neg h]

/-- The correlation profile of the synthetic test sets `{10, 50, 90}` and
`{10+D, 50+D, 90+D}` as a function of the shift class
`d = (k - D : ZMod p)`: three diagonal pairs at `d = 0`, the pairwise
differences `40` twice each way, `80` once each way. -/
def synth_profile (p : ℕ) (d : ZMod p) : ℕ :=
  3 * (if d = 0 then 1 else 0) + 2 * (if d = 40 then 1 else 0)
    + 2 * (if d + 40 = 0 then 1 else 0)
    + (if d = 80 then 1 else 0) + (if d + 80 = 0 then 1 else 0)

/-- Evaluation of the correlation on the synthetic sets: for every modulus
`p` and shift candidate `k`, the convolution counts pairs by the class of
`k - D` modulo `p`. -/
lemma corr_synth_eval (D p : ℕ) (hp : 0 < p) (k : ℕ) :
    corr ({10 + D, 50 + D, 90 + D} : Finset ℕ) ({10, 50, 90} : Finset ℕ) p k
      = synth_profile p ((k : ZMod p) - (D : ZMod p)) := by
  have hA1 : (10 + D : ℕ) ∉ ({50 + D, 90 + D} : Finset ℕ) := by
    simp only [Finset.mem_insert, Finset.mem_singleton]
    omega
  have hA2 : (50 + D : ℕ) ∉ ({90 + D} : Finset ℕ) := by
    simp only [Finset.mem_singleton]
    omega
  have hB1 : (10 : ℕ) ∉ ({50, 90} : Finset ℕ) := by decide
  have hB2 : (50 : ℕ) ∉ ({90} : Finset ℕ) := by decide
  rw [corr_eq_sum_pairs _ _ hp k]
  rw [Finset.sum_insert hA1, Finset.sum_insert hA2, Finset.sum_singleton]
  simp only [Finset.sum_insert hB1, Finset.sum_insert hB2,
    Finset.sum_singleton]
  have e1 : (((10 + D : ℕ) : ZMod p) = ((10 : ℕ) : ZMod p) + (k : ZMod p)) ↔
      ((k : ZMod p) - (D : ZMod p) = 0) := by
    push_cast
    constructor <;> intro h <;> first
      | linear_combination h
      | linear_combination - h
  have e2 : (((10 + D : ℕ) : ZMod p) = ((50 : ℕ) : ZMod p) + (k : ZMod p)) ↔
      ((k : ZMod p) - (D : ZMod p) + 40 = 0) := by
    push_cast
    constructor <;> intro h <;> first
      | linear_combination h
      | linear_combination - h
  have e3 : (((10 + D : ℕ) : ZMod p) = ((90 : ℕ) : ZMod p) + (k : ZMod p)) ↔
      ((k : ZMod p) - (D : ZMod p) + 80 = 0) := by
    push_cast
    constructor <;> intro h <;> first
      | linear_combination h
      | linear_combination - h
  have e4 : (((50 + D : ℕ) : ZMod p) = ((10 : ℕ) : ZMod p) + (k : ZMod p)) ↔
      ((k : ZMod p) - (D : ZMod p) = 40) := by
    push_cast
    constructor <;> intro h <;> first
      | linear_combination h
      | linear_combination - h
  have e5 : (((50 + D : ℕ) : ZMod p) = ((50 : ℕ) : ZMod p) + (k : ZMod p)) ↔
      ((k : ZMod p) - (D : ZMod p) = 0) := by
    push_cast
    constructor <;> intro h <;> first
      | linear_combination h
      | linear_combination - h
  have e6 : (((50 + D : ℕ) : ZMod p) = ((90 : ℕ) : ZMod p) + (k : ZMod p)) ↔
      ((k : ZMod p) - (D : ZMod p) + 40 = 0) := by
    push_cast
    constructor <;> intro h <;> first
      | linear_combination h
      | linear_combination - h
  have e7 : (((90 + D : ℕ) : ZMod p) = ((10 : ℕ) : ZMod p) + (k : ZMod p)) ↔
      ((k : ZMod p) - (D : ZMod p) = 80) := by
    push_cast
    constructor <;> intro h <;> first
      | linear_combination h
      | linear_combination - h
  have e8 : (((90 + D : ℕ) : ZMod p) = ((50 : ℕ) : ZMod p) + (k : ZMod p)) ↔
      ((k : ZMod p) - (D : ZMod p) = 40) := by
    push_cast
    constructor <;> intro h <;> first
      | linear_combination h
      | linear_combination - h
  have e9 : (((90 + D : ℕ) : ZMod p) = ((90 : ℕ) : ZMod p) + (k : ZMod p)) ↔
      ((k : ZMod p) - (D : ZMod p) = 0) := by
    push_cast
    constructor <;> intro h <;> first
      | linear_combination h
      | linear_combination - h
  rw [if_congr e1 rfl rfl, if_congr e2 rfl rfl, if_congr e3 rfl rfl,
    if_congr e4 rfl rfl, if_congr e5 rfl rfl, if_congr e6 rfl rfl,
    if_congr e7 rfl rfl, if_congr e8 rfl rfl, if_congr e9 rfl rfl]
  unfold synth_profile
  ring

lemma odd_dvd_120 {p : ℕ} (hodd : p % 2 = 1) (hdvd : p ∣ 120) :
    p = 1 ∨ p = 3 ∨ p = 5 ∨ p = 15 := by
  have hmem : p ∈ Nat.divisors 120 := Nat.mem_divisors.mpr ⟨hdvd, by norm_num⟩
  fin_cases hmem <;> omega

lemma odd_dvd_160 {p : ℕ} (hodd : p % 2 = 1) (hdvd : p ∣ 160) :
    p = 1 ∨ p = 5 := by
  have hmem : p ∈ Nat.divisors 160 := Nat.mem_divisors.mpr ⟨hdvd, by norm_num⟩
  fin_cases hmem <;> omega

/-- For an odd modulus `p ∉ {3, 15}`, the synthetic correlation profile is
strictly maximal at shift class `0`: the nonzero difference classes `±40`,
`±80` can tie the diagonal only when `p` divides `120` or `160` while not
dividing `40`, which leaves exactly the excluded moduli `3` and `15`. -/
lemma synth_profile_lt {p : ℕ} (hodd : p % 2 = 1) (h3 : p ≠ 3)
    (h15 : p ≠ 15) {d : ZMod p} (hd : d ≠ 0) :
    synth_profile p d < synth_profile p 0 := by
  have hp0 : p ≠ 0 := by omega
  haveI : NeZero p := ⟨hp0⟩
  have hcast : ∀ n : ℕ, ((n : ℕ) : ZMod p) = 0 → p ∣ n := fun n h =>
    (ZMod.natCast_zmod_eq_zero_iff_dvd n p).mp h
  have hdvd40 : ∀ n : ℕ, p ∣ n → ((n : ℕ) : ZMod p) = 0 := fun n h =>
    (ZMod.natCast_zmod_eq_zero_iff_dvd n p).mpr h
  have h2unit : IsUnit (2 : ZMod p) := by
    rw [show (2 : ZMod p) = ((2 : ℕ) : ZMod p) by push_cast; ring]
    rw [ZMod.isUnit_iff_coprime]
    show Nat.gcd 2 p = 1
    rw [Nat.gcd_rec, hodd]
    exact Nat.gcd_one_left 2
  have h80_40 : (80 : ZMod p) = 0 → (40 : ZMod p) = 0 := by
    intro h
    have h' : (2 : ZMod p) * 40 = 0 := by
      rw [show (2 : ZMod p) * 40 = 80 by norm_num, h]
    exact (h2unit.mul_right_eq_zero).mp h'
  have h120_contra : (120 : ZMod p) = 0 → (40 : ZMod p) ≠ 0 → False := by
    intro h h40
    have hdvd : p ∣ 120 := by
      refine hcast 120 ?_
      rw [show ((120 : ℕ) : ZMod p) = (120 : ZMod p) by push_cast; ring]
      exact h
    rcases odd_dvd_120 hodd hdvd with rfl | rfl | rfl | rfl
    · exact h40 (by
        rw [show (40 : ZMod 1) = ((40 : ℕ) : ZMod 1) by push_cast; ring]
        exact hdvd40 40 (by norm_num))
    · exact h3 rfl
    · exact h40 (by
        rw [show (40 : ZMod 5) = ((40 : ℕ) : ZMod 5) by push_cast; ring]
        exact hdvd40 40 (by norm_num))
    · exact h15 rfl
  have h160_40 : (160 : ZMod p) = 0 → (40 : ZMod p) = 0 := by
    intro h
    have hdvd : p ∣ 160 := by
      refine hcast 160 ?_
      rw [show ((160 : ℕ) : ZMod p) = (160 : ZMod p) by push_cast; ring]
      exact h
    rcases odd_dvd_160 hodd hdvd with rfl | rfl
    · rw [show (40 : ZMod 1) = ((40 : ℕ) : ZMod 1) by push_cast; ring]
      exact hdvd40 40 (by norm_num)
    · rw [show (40 : ZMod 5) = ((40 : ℕ) : ZMod 5) by push_cast; ring]
      exact hdvd40 40 (by norm_num)
  by_cases h40 : (40 : ZMod p) = 0
  · have h80 : (80 : ZMod p) = 0 := by
      rw [show (80 : ZMod p) = 40 + 40 by norm_num, h40]
      ring
    have hd40 : ¬ (d = 40) := fun h => hd (h.trans h40)
    have hd40' : ¬ (d + 40 = 0) := fun h => hd (by
      rw [h40, add_zero] at h
      exact h)
    have hd80 : ¬ (d = 80) := fun h => hd (h.trans h80)
    have hd80' : ¬ (d + 80 = 0) := fun h => hd (by
      rw [h80, add_zero] at h
      exact h)
    unfold synth_profile
    rw [if_neg hd, if_neg hd40, if_neg hd40', if_neg hd80, if_neg hd80',
      if_pos rfl, if_pos (show (0 : ZMod p) = 40 from h40.symm),
      if_pos (show (0 : ZMod p) + 40 = 0 from by rw [h40]; ring),
      if_pos (show (0 : ZMod p) = 80 from h80.symm),
      if_pos (show (0 : ZMod p) + 80 = 0 from by rw [h80]; ring)]
    norm_num
  · have h80 : (80 : ZMod p) ≠ 0 := fun h => h40 (h80_40 h)
    have hRHS : synth_profile p 0 = 3 := by
      unfold synth_profile
      rw [if_pos rfl, if_neg (fun h => h40 (Eq.symm h)),
        if_neg (show ¬ ((0 : ZMod p) + 40 = 0) from fun h =>
          h40 (by rwa [zero_add] at h)),
        if_neg (fun h => h80 (Eq.symm h)),
        if_neg (show ¬ ((0 : ZMod p) + 80 = 0) from fun h =>
          h80 (by rwa [zero_add] at h))]
    have hLHS : synth_profile p d ≤ 2 := by
      unfold synth_profile
      rw [if_neg hd]
      by_cases hA : d = 40
      · have hB : ¬ (d + 40 = 0) := by
          intro h
          rw [hA] at h
          refine h80 ?_
          rw [show (80 : ZMod p) = 40 + 40 by norm_num]
          exact h
        have hC : ¬ (d = 80) := by
          intro h
          have h' := hA.symm.trans h
          refine h40 ?_
          linear_combination - h'
        have hE : ¬ (d + 80 = 0) := by
          intro h
          rw [hA] at h
          refine h120_contra ?_ h40
          rw [show (120 : ZMod p) = 40 + 80 by norm_num]
          exact h
        rw [if_pos hA, if_neg hB, if_neg hC, if_neg hE]
      · by_cases hB : d + 40 = 0
        · have hC : ¬ (d = 80) := by
            intro h
            rw [h] at hB
            refine h120_contra ?_ h40
            rw [show (120 : ZMod p) = 80 + 40 by norm_num]
            exact hB
          have hE : ¬ (d + 80 = 0) := by
            intro h
            refine h40 ?_
            linear_combination h - hB
          rw [if_neg hA, if_pos hB, if_neg hC, if_neg hE]
        · by_cases hC : d = 80
          · have hE : ¬ (d + 80 = 0) := by
              intro h
              rw [hC] at h
              refine h40 ?_
              refine h160_40 ?_
              rw [show (160 : ZMod p) = 80 + 80 by norm_num]
              exact h
            rw [if_neg hA, if_neg hB, if_pos hC, if_neg hE]
            norm_num
          · by_cases hE : d + 80 = 0
            · rw [if_neg hA, if_neg hB, if_neg hC, if_pos hE]
              norm_num
            · rw [if_neg hA, if_neg hB, if_neg hC, if_neg hE]
              norm_num
    omega

/-- C4 (amended): for string offsets `{10, 50, 90}` and pointer targets
`{10+D, 50+D, 90+D}`, the per-modulus correlation step (histogram
construction plus circular convolution plus first-maximum index) returns the
local offset `D mod p`, exactly, for every odd modulus `p` other than `3`
and `15`; at `p = 3` and `p = 15` the correlation can tie and the first
maximal index returned need not be `D mod p`. -/
theorem localOffset_synthetic (D p : ℕ) (hodd : p % 2 = 1) (h3 : p ≠ 3)
    (h15 : p ≠ 15) :
    localOffset ({10 + D, 50 + D, 90 + D} : Finset ℕ)
      ({10, 50, 90} : Finset ℕ) p = D % p := by
  have hp : 0 < p := by omega
  unfold localOffset
  have hlen : ((List.range p).map
      (corr ({10 + D, 50 + D, 90 + D} : Finset ℕ)
        ({10, 50, 90} : Finset ℕ) p)).length = p := by
    rw [List.length_map, List.length_range]
  have hi : D % p < ((List.range p).map
      (corr ({10 + D, 50 + D, 90 + D} : Finset ℕ)
        ({10, 50, 90} : Finset ℕ) p)).length := by
    rw [hlen]
    exact Nat.mod_lt _ hp
  refine argmaxFirst_eq_of_strict hi ?_
  intro j hj hne
  have hjp : j < p := by rwa [hlen] at hj
  have hget : ∀ (t : ℕ) (ht : t < ((List.range p).map
      (corr ({10 + D, 50 + D, 90 + D} : Finset ℕ)
        ({10, 50, 90} : Finset ℕ) p)).length),
      ((List.range p).map (corr ({10 + D, 50 + D, 90 + D} : Finset ℕ)
        ({10, 50, 90} : Finset ℕ) p)).get ⟨t, ht⟩ =
      corr ({10 + D, 50 + D, 90 + D} : Finset ℕ)
        ({10, 50, 90} : Finset ℕ) p t := by
    intro t ht
    simp [List.get_eq_getElem]
  rw [hget j hj, hget (D % p) hi, corr_synth_eval D p hp,
    corr_synth_eval D p hp, ZMod.natCast_mod D p, sub_self]
  refine synth_profile_lt hodd h3 h15 ?_
  refine sub_ne_zero_of_ne ?_
  intro heq
  rw [ZMod.natCast_eq_natCast_iff'] at heq
  rw [Nat.mod_eq_of_lt hjp] at heq
  exact hne heq

/-- Counterexample to C4 as stated: at shift `D = 1` and modulus `p = 3`
the three histograms are uniform, the correlation array is `[3, 3, 3]`, and
`np.argmax` returns the first index `0`, which is not `1 = D mod 3`. -/
theorem localOffset_synthetic_counterexample :
    localOffset ({10 + 1, 50 + 1, 90 + 1} : Finset ℕ)
      ({10, 50, 90} : Finset ℕ) 3 = 0 ∧
    ¬ (localOffset ({10 + 1, 50 + 1, 90 + 1} : Finset ℕ)
      ({10, 50, 90} : Finset ℕ) 3 % 3 = 1 % 3) := by
  constructor
  · decide
  · decide

/-- Witness for C4 (amended) at the shift `D = 2` and the modulus `p = 5`
(the smallest modulus the program's builder can produce). -/
theorem localOffset_synthetic_witness :
    (5 : ℕ) % 2 = 1 ∧ (5 : ℕ) ≠ 3 ∧ (5 : ℕ) ≠ 15 ∧
    localOffset ({10 + 2, 50 + 2, 90 + 2} : Finset ℕ)
      ({10, 50, 90} : Finset ℕ) 5 = 2 % 5 :=
  ⟨by decide, by decide, by decide,
    localOffset_synthetic 2 5 (by decide) (by decide) (by decide)⟩
